import Mathlib

/-!
Verification development for the phylofriend genetic-distance engine
(package `genetic`, file genetic.go, current revision: the one defining
`distance`, `DistanceHybrid`, `DistanceInfiniteAlleles` with `> 0` guards,
`MaxMarkers = 587`).

Marker values (Go float64) are embedded as rationals `ℚ`; a marker vector
(Go `[MaxMarkers + NDYS464ext]float64`) is embedded as a total function
`ℕ → ℚ` of which only indices `0 .. 590` are ever read.  The final
division `sum / float64(nCompared)` is embedded into `GoFloat`, which
records IEEE results of dividing by zero (`NaN`, `±Inf`) explicitly.
-/

namespace Phylofriend

/-- Go: `MaxMarkers = 587` (number of Y-STR markers available). -/
def MaxMarkers : ℕ := 587

/-- Go: `NDYS464ext = 4` (extra values for the DYS464 marker). -/
def NDYS464ext : ℕ := 4

def DYS389i : ℕ := 9
def DYS389ii : ℕ := 11
def DYS464start : ℕ := 21
def DYS464end : ℕ := 24
def DYS464extStart : ℕ := MaxMarkers
def DYS464extEnd : ℕ := MaxMarkers + NDYS464ext - 1
def CDYstart : ℕ := 33
def CDYend : ℕ := 34
def DYF395S1start : ℕ := 39
def DYF395S1end : ℕ := 40
def DYS413start : ℕ := 48
def DYS413end : ℕ := 49
def YCAIIstart : ℕ := 27
def YCAIIend : ℕ := 28
def DYS526start : ℕ := 479

/-- Go: `palindromicRegions`, the `(start, end)` index pairs of the
palindromic markers outside the Family Tree DNA 111 marker range
(DYS526, DYS527, DYS528, DYS725, DYF371, DYF380, DYF381, DYF383, DYF384,
DYF385, DYF386, DYF387, DYF391, DYF396, DYF398, DYF399, DYF400, DYF401,
DYF403, DYF404, DYF405, DYF407, DYF408, DYF409, DYF410, DYF411, DYF412,
DYR9, DYR17, DYR18, DYR35, DYR36, DYR38, DYR45, DYR58, DYR63, DYR64,
DYR66, DYR67, DYR68, DYR88, DYR121, DYR122, DYR124, DYR125, DYR128,
DYR132, in source order). -/
def palindromicRegions : List (ℕ × ℕ) :=
  [(479, 480), (481, 482), (483, 484), (485, 488), (489, 492), (493, 494),
   (495, 496), (497, 498), (499, 500), (501, 502), (503, 506), (507, 508),
   (509, 510), (511, 512), (513, 514), (515, 517), (518, 519), (520, 521),
   (522, 523), (524, 525), (526, 527), (528, 529), (530, 531), (532, 533),
   (534, 535), (536, 537), (538, 539), (540, 541), (542, 544), (545, 546),
   (547, 548), (549, 550), (551, 552), (553, 555), (556, 557), (558, 559),
   (560, 561), (562, 563), (564, 567), (568, 571), (572, 573), (574, 575),
   (576, 577), (578, 580), (581, 582), (583, 584), (585, 586)]

/-- Go: `YstrMarkers [MaxMarkers + NDYS464ext]float64`.  Embedded as a
total function; only indices `< MaxMarkers + NDYS464ext` are used. -/
def YstrMarkers : Type := ℕ → ℚ

/-- The all-zero marker vector (Go zero value of `YstrMarkers`). -/
def zeroMarkers : YstrMarkers := fun _ => 0

/-- Go: `DefaultMutationRates()`, all values set to 1. -/
def DefaultMutationRates : YstrMarkers := fun _ => 1

/-- Go: `Person` (ID, Name, Label, Ancestor, Origin, embedded YstrMarkers). -/
structure Person where
  id : String
  name : String
  label : String
  ancestor : String
  origin : String
  ystrMarkers : YstrMarkers

instance : Inhabited Person :=
  ⟨{ id := "", name := "", label := "", ancestor := "", origin := "",
     ystrMarkers := zeroMarkers }⟩

/-!
### Palindromic marker comparison

Go `distancePalindromic` first filters both slices down to their strictly
positive entries, then (if the filtered lengths differ) starts the count
at 1 and swaps so the first list is the smaller one, then greedily matches
each value of the first list against the second list, marking a matched
slot by overwriting it with 0 (`list2[j] = 0`).
-/

/-- One inner `for j` loop of Go `distancePalindromic`: scan `l` for the
first slot equal to `x`; if found, report success and overwrite that slot
with 0. -/
def markMatch (x : ℚ) : List ℚ → Bool × List ℚ
  | [] => (false, [])
  | y :: ys =>
    if x = y then (true, 0 :: ys)
    else
      let r := markMatch x ys
      (r.1, y :: r.2)

/-- The outer `for i` loop of Go `distancePalindromic`: the number of
values of `l1` that find no (still unmarked) equal slot in `l2`. -/
def matchLoop : List ℚ → List ℚ → ℕ
  | [], _ => 0
  | x :: xs, l2 =>
    let r := markMatch x l2
    (if r.1 then 0 else 1) + matchLoop xs r.2

/-- Go: `distancePalindromic(ystr1, ystr2 []float64, mutationRate float64)`. -/
def distancePalindromic (ystr1 ystr2 : List ℚ) (mutationRate : ℚ) : ℚ :=
  if mutationRate = 0 then 0
  else
    let list1 := ystr1.filter fun v => decide (0 < v)
    let list2 := ystr2.filter fun v => decide (0 < v)
    -- Different lengths count as 1; make sure the first list is the smaller.
    let base : ℚ := if list1.length ≠ list2.length then 1 else 0
    let p := if list1.length > list2.length then (list2, list1) else (list1, list2)
    (base + (matchLoop p.1 p.2 : ℚ)) / mutationRate

/-- Go: `isValidPalindromic(ystr1, ystr2 []float64, mutationRate float64)`:
`false` if the mutation rate is 0, if any raw value is negative, or if
either slice has no strictly positive value. -/
def isValidPalindromic (ystr1 ystr2 : List ℚ) (mutationRate : ℚ) : Bool :=
  if mutationRate = 0 then false
  else
    (ystr1.all fun v => decide (0 ≤ v)) && (ystr2.all fun v => decide (0 ≤ v)) &&
    (ystr1.any fun v => decide (0 < v)) && (ystr2.any fun v => decide (0 < v))

/-!
### The distance engine (`distance`, shared by `DistanceHybrid` and
`DistanceInfiniteAlleles`)

Go computes a `distances` array plus a counter `nCompared`, writing each
touched array slot exactly once, and returns `average(distances,
nCompared)`.  We embed the computation as the ordered list of per-marker
contribution steps, each yielding a pair `(contribution, count increment)`;
the sum of the pairs equals Go's `(sum(distances), nCompared)` because
unwritten array slots stay 0 and no slot is written twice.
-/

/-- The `stepwise` closure of Go `distance` (hybrid model, ordinary marker):
contributes `|marker1 - marker2| / mutationRate` and increments `nCompared`
exactly when both values and the mutation rate are strictly positive. -/
def stepwise (marker1 marker2 mutationRate : ℚ) : ℚ × ℕ :=
  if 0 < marker1 ∧ 0 < marker2 ∧ 0 < mutationRate then
    (|marker1 - marker2| / mutationRate, 1)
  else (0, 0)

/-- The `infinite` closure of Go `distance` (infinite alleles model):
contributes `1 / mutationRate` when the values differ, else 0, under the
same strict-positivity guard. -/
def infinite (marker1 marker2 mutationRate : ℚ) : ℚ × ℕ :=
  if 0 < marker1 ∧ 0 < marker2 ∧ 0 < mutationRate then
    ((if marker1 ≠ marker2 then 1 / mutationRate else 0), 1)
  else (0, 0)

/-- Go: `singleDistance` is `infinite` when `isInfiniteAlleles`, else
`stepwise`. -/
def singleDistance (isInfiniteAlleles : Bool) : ℚ → ℚ → ℚ → ℚ × ℕ :=
  if isInfiniteAlleles then infinite else stepwise

/-- Go: `distanceDYS389ii`: difference of the differences
`DYS389ii - DYS389i` of the two persons. -/
def distanceDYS389ii (aDYS389i aDYS389ii bDYS389i bDYS389ii : ℚ) : ℚ :=
  |(aDYS389ii - aDYS389i) - (bDYS389ii - bDYS389i)|

/-- Go: `distanceDYS389iiInfiniteAlleles`. -/
def distanceDYS389iiInfiniteAlleles (aDYS389i aDYS389ii bDYS389i bDYS389ii : ℚ) : ℚ :=
  if aDYS389ii - aDYS389i ≠ bDYS389ii - bDYS389i then 1 else 0

/-- The list `[a, a+1, ..., b-1]` (a Go `for i := a; i < b; i++` loop). -/
def rangeList (a b : ℕ) : List ℕ := (List.range (b - a)).map (a + ·)

/-- Go slice `y[s : e+1]` of a marker vector. -/
def slice (y : YstrMarkers) (s e : ℕ) : List ℚ :=
  (List.range (e + 1 - s)).map fun k => y (s + k)

/-- Go: `concat(ystr[DYS464start:DYS464end+1], ystr[DYS464extStart:DYS464extEnd+1])`,
the canonical DYS464 slots together with the overflow slots. -/
def dys464Values (y : YstrMarkers) : List ℚ :=
  slice y DYS464start DYS464end ++ slice y DYS464extStart DYS464extEnd

/-- The DYS389ii special case of Go `distance`: computed only when all
four underlying DYS389 values of both persons and the DYS389ii mutation
rate are strictly positive; counts as one compared marker. -/
def dys389Step (ystr1 ystr2 mutationRates : YstrMarkers) (isInfiniteAlleles : Bool) : ℚ × ℕ :=
  if 0 < ystr1 DYS389i ∧ 0 < ystr2 DYS389i ∧ 0 < ystr1 DYS389ii ∧ 0 < ystr2 DYS389ii ∧
      0 < mutationRates DYS389ii then
    ((if isInfiniteAlleles then
        distanceDYS389iiInfiniteAlleles (ystr1 DYS389i) (ystr1 DYS389ii)
          (ystr2 DYS389i) (ystr2 DYS389ii)
      else
        distanceDYS389ii (ystr1 DYS389i) (ystr1 DYS389ii)
          (ystr2 DYS389i) (ystr2 DYS389ii)) / mutationRates DYS389ii, 1)
  else (0, 0)

/-- The `palindromic` closure of Go `distance` applied to the region
`[s, e]`: if valid, contributes `distancePalindromic` of the slices and
adds the slice length `e + 1 - s` to `nCompared`. -/
def palStep (ystr1 ystr2 mutationRates : YstrMarkers) (s e : ℕ) : ℚ × ℕ :=
  if isValidPalindromic (slice ystr1 s e) (slice ystr2 s e) (mutationRates e) then
    (distancePalindromic (slice ystr1 s e) (slice ystr2 s e) (mutationRates e), e + 1 - s)
  else (0, 0)

/-- The inline DYS464 case of Go `distance`: the canonical 4 slots plus the
4 overflow slots are compared as one palindromic multiset, but only
`DYS464end - DYS464start + 1 = 4` is added to `nCompared` ("the extremely
rare cases of more than 4 DYS464 markers are ignored for counting"). -/
def dys464Step (ystr1 ystr2 mutationRates : YstrMarkers) : ℚ × ℕ :=
  if isValidPalindromic (dys464Values ystr1) (dys464Values ystr2)
      (mutationRates DYS464end) then
    (distancePalindromic (dys464Values ystr1) (dys464Values ystr2)
      (mutationRates DYS464end), DYS464end - DYS464start + 1)
  else (0, 0)

/-- One per-marker contribution step of Go `distance`, in source order. -/
inductive Step where
  | single (i : ℕ)
  | dys389
  | dys464
  | pal (s e : ℕ)
deriving DecidableEq, Repr

/-- The contribution pair `(distances entry, nCompared increment)` of one
step. -/
def evalStep (ystr1 ystr2 mutationRates : YstrMarkers) (isInfiniteAlleles : Bool) :
    Step → ℚ × ℕ
  | .single i => singleDistance isInfiniteAlleles (ystr1 i) (ystr2 i) (mutationRates i)
  | .dys389 => dys389Step ystr1 ystr2 mutationRates isInfiniteAlleles
  | .dys464 => dys464Step ystr1 ystr2 mutationRates
  | .pal s e => palStep ystr1 ystr2 mutationRates s e

/-- The steps of Go `distance` in source order: stepwise/infinite loops over
`[0, DYS389ii)`, the DYS389ii case, `(DYS389ii, DYS464start)`, the DYS464
case, `(DYS464end, YCAIIstart)`, YCAII, `(YCAIIend, CDYstart)`, CDY,
`(CDYend, DYF395S1start)`, DYF395S1, `(DYF395S1end, DYS413start)`, DYS413,
`(DYS413end, DYS526start)`, then all regions of `palindromicRegions`. -/
def engineSteps : List Step :=
  (rangeList 0 DYS389ii).map .single ++ [.dys389] ++
  (rangeList (DYS389ii + 1) DYS464start).map .single ++ [.dys464] ++
  (rangeList (DYS464end + 1) YCAIIstart).map .single ++ [.pal YCAIIstart YCAIIend] ++
  (rangeList (YCAIIend + 1) CDYstart).map .single ++ [.pal CDYstart CDYend] ++
  (rangeList (CDYend + 1) DYF395S1start).map .single ++
  [.pal DYF395S1start DYF395S1end] ++
  (rangeList (DYF395S1end + 1) DYS413start).map .single ++
  [.pal DYS413start DYS413end] ++
  (rangeList (DYS413end + 1) DYS526start).map .single ++
  palindromicRegions.map fun r => .pal r.1 r.2

/-- Componentwise addition of contribution pairs. -/
def addPair (p q : ℚ × ℕ) : ℚ × ℕ := (p.1 + q.1, p.2 + q.2)

/-- `(sum(distances), nCompared)` of Go `distance`. -/
def distanceTotal (ystr1 ystr2 mutationRates : YstrMarkers) (isInfiniteAlleles : Bool) :
    ℚ × ℕ :=
  ((engineSteps.map (evalStep ystr1 ystr2 mutationRates isInfiniteAlleles)).foldr
    addPair (0, 0))

/-- The result type of the final Go float64 division: dividing by a zero
`nCompared` yields NaN (for a zero sum) or a signed infinity, exactly as
IEEE `sum / 0.0` does; otherwise the exact quotient. -/
inductive GoFloat where
  | val (q : ℚ)
  | nan
  | posInf
  | negInf
deriving DecidableEq, Repr

/-- Go: `average(distances, nCompared) = sum(distances) / float64(nCompared)`,
with the IEEE divide-by-zero results made explicit. -/
def average (s : ℚ) (nCompared : ℕ) : GoFloat :=
  if nCompared = 0 then
    (if s = 0 then .nan else if 0 < s then .posInf else .negInf)
  else .val (s / nCompared)

/-- Go: `distance(ystr1, ystr2, mutationRates, isInfiniteAlleles)`. -/
def distance (ystr1 ystr2 mutationRates : YstrMarkers) (isInfiniteAlleles : Bool) :
    GoFloat :=
  average (distanceTotal ystr1 ystr2 mutationRates isInfiniteAlleles).1
    (distanceTotal ystr1 ystr2 mutationRates isInfiniteAlleles).2

/-- Go: `DistanceHybrid`. -/
def DistanceHybrid (ystr1 ystr2 mutationRates : YstrMarkers) : GoFloat :=
  distance ystr1 ystr2 mutationRates false

/-- Go: `DistanceInfiniteAlleles`. -/
def DistanceInfiniteAlleles (ystr1 ystr2 mutationRates : YstrMarkers) : GoFloat :=
  distance ystr1 ystr2 mutationRates true

/-!
### Modal haplotype

Go `ModalHaplotype` builds, per marker, a map from strictly positive
values to their occurrence counts, takes a value of maximal count in a
first pass over the map, then lowers it to the smallest value of that
count in a second pass.  Go map iteration order is unspecified; we embed
the map as the association list over the first occurrences of the values
(the result is independent of the enumeration order, which is what claim
C7 asserts).
-/

/-- The marker values of all persons at position `m`. -/
def markerValues (persons : List Person) (m : ℕ) : List ℚ :=
  persons.map fun p => p.ystrMarkers m

/-- The strictly positive marker values at position `m` (value 0 means
"not measured" and is excluded from tallying). -/
def positiveValues (persons : List Person) (m : ℕ) : List ℚ :=
  (markerValues persons m).filter fun v => decide (0 < v)

/-- Go `cMarkers`: each distinct strictly positive value paired with its
occurrence count. -/
def cMarkers (persons : List Person) (m : ℕ) : List (ℚ × ℕ) :=
  (positiveValues persons m).dedup.map fun v => (v, (positiveValues persons m).count v)

/-- First pass of Go `ModalHaplotype`: `if count > max { modalValue = value;
max = count }`, started from `max = 0`, `modalValue = 0.0`. -/
def findMax : List (ℚ × ℕ) → ℕ × ℚ → ℕ × ℚ
  | [], acc => acc
  | (v, c) :: rest, (mx, mv) => findMax rest (if c > mx then (c, v) else (mx, mv))

/-- Second pass of Go `ModalHaplotype`: `if count == max && value <
modalValue { modalValue = value }`. -/
def lowerTie (mx : ℕ) : List (ℚ × ℕ) → ℚ → ℚ
  | [], mv => mv
  | (v, c) :: rest, mv => lowerTie mx rest (if c = mx ∧ v < mv then v else mv)

/-- The modal value of marker `m` over `persons`. -/
def modalValue (persons : List Person) (m : ℕ) : ℚ :=
  let cm := cMarkers persons m
  let r := findMax cm (0, 0)
  lowerTie r.1 cm r.2

/-- Go: `ModalHaplotype(persons)`: the synthetic "modal" person; markers
`0 .. MaxMarkers - 1` carry the modal values, the DYS464 overflow slots
stay 0. -/
def ModalHaplotype (persons : List Person) : Person :=
  { id := "modal", name := "modal", label := "_____modal", ancestor := "modal",
    origin := "modal",
    ystrMarkers := fun m => if m < MaxMarkers then modalValue persons m else 0 }

/-!
### Distance matrix
-/

/-- Go: `DistanceFunc`, the type of genetic distance functions fed to
`NewDistanceMatrix` (a plain float64-valued function in Go). -/
def DistanceFunc : Type := YstrMarkers → YstrMarkers → YstrMarkers → ℚ

/-- Go: `DistanceMatrix` (`Size` plus row-major `Values`). -/
structure DistanceMatrix where
  size : ℕ
  values : List (List ℚ)

/-- Go: `NewDistanceMatrix(persons, mutationRates, distance)`: the upper
right triangle including the diagonal (`j >= i`) is filled by invoking the
metric, then the lower left triangle is copied from the upper one
(`Values[i][j] = Values[j][i]` for `j < i`), so the cell content is the
metric at the sorted index pair. -/
def NewDistanceMatrix (persons : List Person) (mutationRates : YstrMarkers)
    (d : DistanceFunc) : DistanceMatrix :=
  { size := persons.length,
    values := (List.range persons.length).map fun i =>
      (List.range persons.length).map fun j =>
        if i ≤ j then
          d (persons.getD i default).ystrMarkers (persons.getD j default).ystrMarkers
            mutationRates
        else
          d (persons.getD j default).ystrMarkers (persons.getD i default).ystrMarkers
            mutationRates }

/-- The ordered list of index pairs on which `NewDistanceMatrix` invokes
the metric: the double loop `for i; for j := i` produces exactly the pairs
`(i, j)` with `i ≤ j < n`, each once. -/
def metricCallPairs (n : ℕ) : List (ℕ × ℕ) :=
  (List.range n).flatMap fun i => (rangeList i n).map fun j => (i, j)

/-- Cell access `matrix.Values[i][j]`. -/
def matrixGet (dm : DistanceMatrix) (i j : ℕ) : ℚ :=
  (dm.values.getD i []).getD j 0

/-- Go: `math.Trunc`, rounding toward zero. -/
def ratTrunc (q : ℚ) : ℚ :=
  if 0 ≤ q then (⌊q⌋ : ℚ) else (⌈q⌉ : ℚ)

/-- Go: `(dm *DistanceMatrix) Years(generationDistance, calibrationFactor)`:
a new matrix of the same size, every cell multiplied by
`generationDistance * calibrationFactor` and truncated (`math.Trunc`).
The receiver is not modified (the embedding is pure, so this is inherent). -/
def Years (dm : DistanceMatrix) (generationDistance calibrationFactor : ℚ) :
    DistanceMatrix :=
  { size := dm.size,
    values := dm.values.map fun row =>
      row.map fun v => ratTrunc (generationDistance * calibrationFactor * v) }

/-!
### Marker-set reduction
-/

/-- Go: `(p *Person) markerSet(nMarkers)`: a copy of the person with all
marker values at indices `nMarkers .. MaxMarkers - 1` set to 0 (the DYS464
overflow slots are untouched by the loop bound `MaxMarkers`), together
with the completeness flag: incomplete iff some index `i < nMarkers` has
value 0 and satisfies `i <= DYS464start || i >= DYS464end`. -/
def markerSet (p : Person) (nMarkers : ℕ) : Person × Bool :=
  let y : YstrMarkers := fun i =>
    if nMarkers ≤ i ∧ i < MaxMarkers then 0 else p.ystrMarkers i
  let person : Person := { p with ystrMarkers := y }
  let isComplete : Bool := (List.range nMarkers).all fun i =>
    !(decide (y i = 0) && (decide (i ≤ DYS464start) || decide (DYS464end ≤ i)))
  (person, isComplete)

/-- Go: `ReduceToMarkerSet(persons, nMarkers)`: keep the reduced copies of
the complete persons; Go returns the (possibly short) list together with a
non-nil error when fewer than 2 remain, which we embed as `Except`. -/
def ReduceToMarkerSet (persons : List Person) (nMarkers : ℕ) :
    Except String (List Person) :=
  let result := persons.filterMap fun p =>
    let r := markerSet p nMarkers
    if r.2 then some r.1 else none
  if result.length < 2 then
    .error "not enough persons who have tested for so many markers"
  else .ok result

/-!
### Region index lists and step classification (used to state permutation
invariance of the palindromic regions)
-/

/-- The indices holding the DYS464 values: the 4 canonical slots and the 4
overflow slots. -/
def dys464Indices : List ℕ :=
  rangeList DYS464start (DYS464end + 1) ++ rangeList DYS464extStart (DYS464extEnd + 1)

/-- The index lists of all palindromic regions handled by `distance`:
YCAII, CDY, DYF395S1, DYS413, DYS464 (with overflow), and the regions of
`palindromicRegions`. -/
def palRegionLists : List (List ℕ) :=
  [rangeList YCAIIstart (YCAIIend + 1), rangeList CDYstart (CDYend + 1),
   rangeList DYF395S1start (DYF395S1end + 1), rangeList DYS413start (DYS413end + 1),
   dys464Indices] ++
  palindromicRegions.map fun r => rangeList r.1 (r.2 + 1)

/-- A step is compatible with region `R` when it reads no index of `R`
except possibly through the palindromic comparison of `R` itself. -/
def stepOKb (R : List ℕ) : Step → Bool
  | .single i => decide (i ∉ R)
  | .dys389 => decide (DYS389i ∉ R) && decide (DYS389ii ∉ R)
  | .dys464 =>
    decide (dys464Indices = R) || dys464Indices.all fun j => decide (j ∉ R)
  | .pal s e =>
    decide (rangeList s (e + 1) = R) ||
      (rangeList s (e + 1)).all fun j => decide (j ∉ R)

/-!
### Concrete inputs used by witnesses and counterexamples
-/

/-- A person with no measured markers. -/
def examplePerson : Person :=
  { id := "", name := "", label := "", ancestor := "", origin := "",
    ystrMarkers := zeroMarkers }

/-- A marker vector that is invalid everywhere (all values negative). -/
def negMarkers : YstrMarkers := fun _ => -5

/-- Witness vectors for the YCAII permutation example: `ycaiiA` and
`ycaiiB` agree outside indices 27 and 28 and swap the two YCAII values. -/
def ycaiiA : YstrMarkers := fun i =>
  if i = YCAIIstart then 12 else if i = YCAIIend then 14 else 10

def ycaiiB : YstrMarkers := fun i =>
  if i = YCAIIstart then 14 else if i = YCAIIend then 12 else 10

/-- A marker vector with a full DYS464 region and two strictly positive
overflow values (6 observed copies). -/
def dys464Overflow : YstrMarkers := fun i =>
  if DYS464start ≤ i ∧ i ≤ DYS464end then 12
  else if DYS464extStart ≤ i ∧ i ≤ DYS464extStart + 1 then 15 else 0

/-- A person missing exactly the value at index `DYS464start` among the
first 26 markers. -/
def personNoDYS464start : Person :=
  { id := "", name := "", label := "", ancestor := "", origin := "",
    ystrMarkers := fun i => if i = DYS464start then 0 else if i < 26 then 10 else 0 }

/-- A person missing exactly the value at index `DYS464start + 1` (an
interior DYS464 slot) among the first 26 markers. -/
def personNoDYS464inner : Person :=
  { id := "", name := "", label := "", ancestor := "", origin := "",
    ystrMarkers := fun i => if i = DYS464start + 1 then 0 else if i < 26 then 10 else 0 }

/-- Two persons for the matrix witness: they differ by 2 at marker 0. -/
def witnessPersonA : Person :=
  { id := "a", name := "a", label := "a", ancestor := "", origin := "",
    ystrMarkers := fun i => if i = 0 then 13 else 0 }

def witnessPersonB : Person :=
  { id := "b", name := "b", label := "b", ancestor := "", origin := "",
    ystrMarkers := fun i => if i = 0 then 15 else 0 }

/-- Every palindromic step of the engine spans at least two indices, so
its `nCompared` increment is nonzero. -/
def stepCountPos : Step → Bool
  | .pal s e => decide (s < e)
  | _ => true

/-- A person whose every marker slot holds the same value. -/
def constPerson (q : ℚ) : Person :=
  { id := "", name := "", label := "", ancestor := "", origin := "",
    ystrMarkers := fun _ => q }

/-- Four persons realizing the modal tie `{10 : 2, 12 : 2}` at every
marker. -/
def modalTiePersons : List Person :=
  [constPerson 10, constPerson 12, constPerson 12, constPerson 10]

/-- Constant marker vectors used by witnesses. -/
def thirteenMarkers : YstrMarkers := fun _ => 13

def fifteenMarkers : YstrMarkers := fun _ => 15

/-- The constant-1 metric (a legal `DistanceFunc`). -/
def constOneMetric : DistanceFunc := fun _ _ _ => 1

/-!
## Helper lemmas

### The greedy matcher of `distancePalindromic`

`matchLoop l1 l2` marks matched slots of `l2` by overwriting them with 0;
since every element of `l1` is strictly positive in all uses, the marks
never interfere with later matches, and the number of unmatched values is
the length of `l1` minus the size of the multiset intersection of `l1`
with the positive part of `l2`.
-/

theorem markMatch_of_not_mem (x : ℚ) (l : List ℚ) (h : x ∉ l) :
    markMatch x l = (false, l) := by
  induction l with
  | nil => rfl
  | cons y ys ih =>
    have hxy : x ≠ y := fun he => h (he ▸ List.mem_cons_self y ys)
    have hys : x ∉ ys := fun hm => h (List.mem_cons_of_mem y hm)
    simp [markMatch, if_neg hxy, ih hys]

theorem markMatch_fst_of_mem (x : ℚ) (l : List ℚ) (h : x ∈ l) :
    (markMatch x l).1 = true := by
  induction l with
  | nil => cases h
  | cons y ys ih =>
    by_cases hxy : x = y
    · simp [markMatch, if_pos hxy]
    · have hys : x ∈ ys := (List.mem_cons.mp h).resolve_left hxy
      simp [markMatch, if_neg hxy, ih hys]

theorem markMatch_coe_of_mem (x : ℚ) (l : List ℚ) (h : x ∈ l) :
    ((markMatch x l).2 : Multiset ℚ) = 0 ::ₘ (↑l : Multiset ℚ).erase x := by
  induction l with
  | nil => cases h
  | cons y ys ih =>
    by_cases hxy : x = y
    · subst hxy
      simp [markMatch, Multiset.erase_cons_head]
    · have hys : x ∈ ys := (List.mem_cons.mp h).resolve_left hxy
      have : (markMatch x (y :: ys)).2 = y :: (markMatch x ys).2 := by
        simp [markMatch, if_neg hxy]
      rw [this, ← Multiset.cons_coe, ih hys, ← Multiset.cons_coe,
        Multiset.erase_cons_tail_of_mem hys, Multiset.cons_swap]

theorem filter_erase_of_pos (x : ℚ) (hx : 0 < x) (s : Multiset ℚ) :
    (s.erase x).filter (fun v => 0 < v) = (s.filter fun v => 0 < v).erase x := by
  by_cases hm : x ∈ s
  · obtain ⟨t, rfl⟩ := Multiset.exists_cons_of_mem hm
    rw [Multiset.erase_cons_head, Multiset.filter_cons_of_pos t hx,
      Multiset.erase_cons_head]
  · rw [Multiset.erase_of_not_mem hm, Multiset.erase_of_not_mem]
    exact fun hmem => hm (Multiset.mem_of_mem_filter hmem)

theorem matchLoop_eq (l1 : List ℚ) (h1 : ∀ x ∈ l1, 0 < x) : ∀ l2 : List ℚ,
    matchLoop l1 l2 =
      l1.length -
        Multiset.card ((↑l1 : Multiset ℚ) ∩ (↑l2 : Multiset ℚ).filter fun v => 0 < v) := by
  induction l1 with
  | nil => intro l2; simp [matchLoop]
  | cons x xs ih =>
    intro l2
    have hx : 0 < x := h1 x (List.mem_cons_self x xs)
    have hxs : ∀ y ∈ xs, 0 < y := fun y hy => h1 y (List.mem_cons_of_mem x hy)
    by_cases hm : x ∈ l2
    · have hstep : matchLoop (x :: xs) l2 = matchLoop xs (markMatch x l2).2 := by
        simp [matchLoop, markMatch_fst_of_mem x l2 hm]
      have hfilter : ((markMatch x l2).2 : Multiset ℚ).filter (fun v => 0 < v) =
          ((↑l2 : Multiset ℚ).filter fun v => 0 < v).erase x := by
        rw [markMatch_coe_of_mem x l2 hm,
          Multiset.filter_cons_of_neg _ (by norm_num), filter_erase_of_pos x hx]
      have hmemS : x ∈ (↑l2 : Multiset ℚ).filter fun v => 0 < v :=
        Multiset.mem_filter.mpr ⟨Multiset.mem_coe.mpr hm, hx⟩
      have hinter : ((↑(x :: xs) : Multiset ℚ) ∩ ((↑l2 : Multiset ℚ).filter fun v => 0 < v)) =
          x ::ₘ ((↑xs : Multiset ℚ) ∩ ((↑l2 : Multiset ℚ).filter fun v => 0 < v).erase x) := by
        rw [← Multiset.cons_coe]
        exact Multiset.cons_inter_of_pos _ hmemS
      rw [hstep, ih hxs, hfilter, hinter]
      simp only [Multiset.card_cons, List.length_cons]
      omega
    · have hstep : matchLoop (x :: xs) l2 = 1 + matchLoop xs l2 := by
        simp [matchLoop, markMatch_of_not_mem x l2 hm]
      have hnmemS : x ∉ (↑l2 : Multiset ℚ).filter fun v => 0 < v := fun hc =>
        hm (Multiset.mem_coe.mp (Multiset.mem_of_mem_filter hc))
      have hinter : ((↑(x :: xs) : Multiset ℚ) ∩ ((↑l2 : Multiset ℚ).filter fun v => 0 < v)) =
          ((↑xs : Multiset ℚ) ∩ ((↑l2 : Multiset ℚ).filter fun v => 0 < v)) := by
        rw [← Multiset.cons_coe]
        exact Multiset.cons_inter_of_neg _ hnmemS
      have hcard : Multiset.card ((↑xs : Multiset ℚ) ∩ ((↑l2 : Multiset ℚ).filter fun v => 0 < v)) ≤
          xs.length := by
        have := Multiset.card_le_card
          (Multiset.inter_le_left (↑xs : Multiset ℚ) ((↑l2 : Multiset ℚ).filter fun v => 0 < v))
        simpa using this
      rw [hstep, ih hxs l2, hinter]
      simp only [List.length_cons]
      omega

theorem matchLoop_eq_of_pos (A B : List ℚ) (hA : ∀ x ∈ A, 0 < x) (hB : ∀ x ∈ B, 0 < x) :
    matchLoop A B = A.length - Multiset.card ((↑A : Multiset ℚ) ∩ (↑B : Multiset ℚ)) := by
  rw [matchLoop_eq A hA B, Multiset.filter_eq_self.mpr]
  exact fun a ha => hB a (Multiset.mem_coe.mp ha)

theorem mem_posFilter_pos {l : List ℚ} : ∀ x ∈ l.filter fun v => decide (0 < v), 0 < x :=
  fun x hx => by simpa using List.of_mem_filter hx

/-- Closed form of `distancePalindromic` for a nonzero rate: the length
mismatch penalty plus the number of values of the smaller filtered list
without a partner in the larger one, i.e. the minimum length minus the
multiset intersection size, all divided by the rate. -/
theorem distancePalindromic_eq_formula (l1 l2 : List ℚ) {r : ℚ} (hr : r ≠ 0) :
    distancePalindromic l1 l2 r =
      ((if (l1.filter fun v => decide (0 < v)).length ≠
            (l2.filter fun v => decide (0 < v)).length then (1 : ℚ) else 0) +
        ((min (l1.filter fun v => decide (0 < v)).length
              (l2.filter fun v => decide (0 < v)).length -
          Multiset.card ((↑(l1.filter fun v => decide (0 < v)) : Multiset ℚ) ∩
            ↑(l2.filter fun v => decide (0 < v))) : ℕ) : ℚ)) / r := by
  unfold distancePalindromic
  rw [if_neg hr]
  dsimp only
  by_cases hgt : (l1.filter fun v => decide (0 < v)).length >
      (l2.filter fun v => decide (0 < v)).length
  · rw [if_pos hgt]
    dsimp only
    rw [matchLoop_eq_of_pos _ _ mem_posFilter_pos mem_posFilter_pos,
      Multiset.inter_comm, min_eq_right (Nat.le_of_lt hgt)]
  · rw [if_neg hgt]
    dsimp only
    rw [matchLoop_eq_of_pos _ _ mem_posFilter_pos mem_posFilter_pos,
      min_eq_left (Nat.le_of_not_lt hgt)]

/-- `distancePalindromic` is symmetric in its two value lists. -/
theorem distancePalindromic_comm (l1 l2 : List ℚ) (r : ℚ) :
    distancePalindromic l1 l2 r = distancePalindromic l2 l1 r := by
  by_cases hr : r = 0
  · unfold distancePalindromic; rw [if_pos hr, if_pos hr]
  · rw [distancePalindromic_eq_formula l1 l2 hr, distancePalindromic_eq_formula l2 l1 hr,
      Multiset.inter_comm, Nat.min_comm]
    by_cases heq : (l1.filter fun v => decide (0 < v)).length =
        (l2.filter fun v => decide (0 < v)).length
    · rw [if_neg (fun hc => hc heq), if_neg fun hc => hc heq.symm]
    · rw [if_pos heq, if_pos fun hc => heq hc.symm]

/-- `distancePalindromic` only depends on the first list up to
permutation. -/
theorem distancePalindromic_perm_left {l1 l1' : List ℚ} (h : l1.Perm l1')
    (l2 : List ℚ) (r : ℚ) :
    distancePalindromic l1 l2 r = distancePalindromic l1' l2 r := by
  by_cases hr : r = 0
  · unfold distancePalindromic; rw [if_pos hr, if_pos hr]
  · have hf : (l1.filter fun v => decide (0 < v)).Perm
        (l1'.filter fun v => decide (0 < v)) := h.filter _
    rw [distancePalindromic_eq_formula l1 l2 hr, distancePalindromic_eq_formula l1' l2 hr,
      hf.length_eq, Multiset.coe_eq_coe.mpr hf]

/-- `isValidPalindromic` is symmetric in its two value lists. -/
theorem isValidPalindromic_comm (l1 l2 : List ℚ) (r : ℚ) :
    isValidPalindromic l1 l2 r = isValidPalindromic l2 l1 r := by
  unfold isValidPalindromic
  by_cases hr : r = 0
  · rw [if_pos hr, if_pos hr]
  · rw [if_neg hr, if_neg hr]
    cases l1.all fun v => decide (0 ≤ v) <;> cases l2.all fun v => decide (0 ≤ v) <;>
      cases l1.any fun v => decide (0 < v) <;> cases l2.any fun v => decide (0 < v) <;> rfl

/-- `isValidPalindromic` only depends on the first list up to
permutation. -/
theorem isValidPalindromic_perm_left {l1 l1' : List ℚ} (h : l1.Perm l1')
    (l2 : List ℚ) (r : ℚ) :
    isValidPalindromic l1 l2 r = isValidPalindromic l1' l2 r := by
  unfold isValidPalindromic
  have hall : (l1.all fun v => decide (0 ≤ v)) = (l1'.all fun v => decide (0 ≤ v)) :=
    Bool.coe_iff_coe.mp (by simp [List.all_eq_true, h.mem_iff])
  have hany : (l1.any fun v => decide (0 < v)) = (l1'.any fun v => decide (0 < v)) :=
    Bool.coe_iff_coe.mp (by simp [List.any_eq_true, h.mem_iff])
  rw [hall, hany]

/-!
### Slices and per-step lemmas
-/

theorem slice_eq_map (y : YstrMarkers) (s e : ℕ) :
    slice y s e = (rangeList s (e + 1)).map y := by
  unfold slice rangeList
  rw [List.map_map]
  rfl

theorem dys464Values_eq_map (y : YstrMarkers) : dys464Values y = dys464Indices.map y := by
  unfold dys464Values dys464Indices
  rw [List.map_append, slice_eq_map, slice_eq_map]

theorem palStep_perm_left {y1 y1' : YstrMarkers} (y2 rates : YstrMarkers) (s e : ℕ)
    (h : (slice y1 s e).Perm (slice y1' s e)) :
    palStep y1 y2 rates s e = palStep y1' y2 rates s e := by
  unfold palStep
  rw [isValidPalindromic_perm_left h, distancePalindromic_perm_left h]

theorem dys464Step_perm_left {y1 y1' : YstrMarkers} (y2 rates : YstrMarkers)
    (h : (dys464Values y1).Perm (dys464Values y1')) :
    dys464Step y1 y2 rates = dys464Step y1' y2 rates := by
  unfold dys464Step
  rw [isValidPalindromic_perm_left h, distancePalindromic_perm_left h]

theorem palStep_comm (y1 y2 rates : YstrMarkers) (s e : ℕ) :
    palStep y1 y2 rates s e = palStep y2 y1 rates s e := by
  unfold palStep
  rw [isValidPalindromic_comm, distancePalindromic_comm]

theorem dys464Step_comm (y1 y2 rates : YstrMarkers) :
    dys464Step y1 y2 rates = dys464Step y2 y1 rates := by
  unfold dys464Step
  rw [isValidPalindromic_comm, distancePalindromic_comm]

theorem stepwise_comm (a b r : ℚ) : stepwise a b r = stepwise b a r := by
  unfold stepwise
  by_cases h : 0 < a ∧ 0 < b ∧ 0 < r
  · rw [if_pos h, if_pos ⟨h.2.1, h.1, h.2.2⟩, abs_sub_comm]
  · rw [if_neg h, if_neg fun hc => h ⟨hc.2.1, hc.1, hc.2.2⟩]

theorem infinite_comm (a b r : ℚ) : infinite a b r = infinite b a r := by
  unfold infinite
  refine if_congr (by tauto) ?_ rfl
  exact congrArg (fun q : ℚ => (q, (1 : ℕ))) (if_congr ne_comm rfl rfl)

theorem distanceDYS389ii_comm (a1 a2 b1 b2 : ℚ) :
    distanceDYS389ii a1 a2 b1 b2 = distanceDYS389ii b1 b2 a1 a2 := by
  unfold distanceDYS389ii
  rw [abs_sub_comm]

theorem distanceDYS389iiInfAll_comm (a1 a2 b1 b2 : ℚ) :
    distanceDYS389iiInfiniteAlleles a1 a2 b1 b2 =
      distanceDYS389iiInfiniteAlleles b1 b2 a1 a2 := by
  unfold distanceDYS389iiInfiniteAlleles
  exact if_congr ne_comm rfl rfl

theorem dys389Step_comm (y1 y2 rates : YstrMarkers) (mode : Bool) :
    dys389Step y1 y2 rates mode = dys389Step y2 y1 rates mode := by
  unfold dys389Step
  refine if_congr (by tauto) ?_ rfl
  exact congrArg (fun q : ℚ => ((q / rates DYS389ii : ℚ), (1 : ℕ)))
    (if_congr Iff.rfl
      (distanceDYS389iiInfAll_comm (y1 DYS389i) (y1 DYS389ii) (y2 DYS389i) (y2 DYS389ii))
      (distanceDYS389ii_comm (y1 DYS389i) (y1 DYS389ii) (y2 DYS389i) (y2 DYS389ii)))

theorem evalStep_comm (y1 y2 rates : YstrMarkers) (mode : Bool) (st : Step) :
    evalStep y1 y2 rates mode st = evalStep y2 y1 rates mode st := by
  cases st with
  | single i =>
    cases mode
    · simpa [evalStep, singleDistance] using stepwise_comm (y1 i) (y2 i) (rates i)
    · simpa [evalStep, singleDistance] using infinite_comm (y1 i) (y2 i) (rates i)
  | dys389 => exact dys389Step_comm y1 y2 rates mode
  | dys464 => exact dys464Step_comm y1 y2 rates
  | pal s e => exact palStep_comm y1 y2 rates s e

theorem distanceTotal_comm (y1 y2 rates : YstrMarkers) (mode : Bool) :
    distanceTotal y1 y2 rates mode = distanceTotal y2 y1 rates mode := by
  unfold distanceTotal
  rw [List.map_congr_left fun st _ => evalStep_comm y1 y2 rates mode st]

theorem distance_comm (y1 y2 rates : YstrMarkers) (mode : Bool) :
    distance y1 y2 rates mode = distance y2 y1 rates mode := by
  unfold distance
  rw [distanceTotal_comm]

/-!
### Permutation invariance of palindromic regions

Every step of the engine either avoids the indices of a given palindromic
region entirely, or is the palindromic comparison of exactly that region.
-/

set_option maxRecDepth 100000 in
set_option maxHeartbeats 4000000 in
theorem stepOK_all : ∀ R ∈ palRegionLists, ∀ st ∈ engineSteps, stepOKb R st = true := by
  decide

theorem evalStep_agree_left (R : List ℕ) (y1 y1' y2 rates : YstrMarkers) (mode : Bool)
    (hout : ∀ i, i ∉ R → y1' i = y1 i)
    (hperm : (R.map y1').Perm (R.map y1)) :
    ∀ st : Step, stepOKb R st = true →
      evalStep y1' y2 rates mode st = evalStep y1 y2 rates mode st := by
  intro st hok
  cases st with
  | single i =>
    have hi : i ∉ R := by simpa [stepOKb] using hok
    simp [evalStep, hout i hi]
  | dys389 =>
    have h9 : DYS389i ∉ R ∧ DYS389ii ∉ R := by simpa [stepOKb] using hok
    simp [evalStep, dys389Step, hout _ h9.1, hout _ h9.2]
  | dys464 =>
    have hc : dys464Indices = R ∨ ∀ j ∈ dys464Indices, j ∉ R := by
      simpa [stepOKb, List.all_eq_true] using hok
    cases hc with
    | inl he =>
      have hp : (dys464Values y1').Perm (dys464Values y1) := by
        rw [dys464Values_eq_map, dys464Values_eq_map, he]
        exact hperm
      exact dys464Step_perm_left y2 rates hp
    | inr hd =>
      have hv : dys464Values y1' = dys464Values y1 := by
        rw [dys464Values_eq_map, dys464Values_eq_map]
        exact List.map_congr_left fun j hj => hout j (hd j hj)
      simp [evalStep, dys464Step, hv]
  | pal s e =>
    have hc : rangeList s (e + 1) = R ∨ ∀ j ∈ rangeList s (e + 1), j ∉ R := by
      simpa [stepOKb, List.all_eq_true] using hok
    cases hc with
    | inl he =>
      have hp : (slice y1' s e).Perm (slice y1 s e) := by
        rw [slice_eq_map, slice_eq_map, he]
        exact hperm
      exact palStep_perm_left y2 rates s e hp
    | inr hd =>
      have hv : slice y1' s e = slice y1 s e := by
        rw [slice_eq_map, slice_eq_map]
        exact List.map_congr_left fun j hj => hout j (hd j hj)
      simp [evalStep, palStep, hv]

/-- Permuting the values inside one palindromic region of the first marker
vector never changes the distance. -/
theorem distance_perm_left (R : List ℕ) (hR : R ∈ palRegionLists)
    (y1 y1' y2 rates : YstrMarkers) (mode : Bool)
    (hout : ∀ i, i ∉ R → y1' i = y1 i)
    (hperm : (R.map y1').Perm (R.map y1)) :
    distance y1' y2 rates mode = distance y1 y2 rates mode := by
  unfold distance distanceTotal
  rw [List.map_congr_left fun st hst =>
    evalStep_agree_left R y1 y1' y2 rates mode hout hperm st (stepOK_all R hR st hst)]

/-!
### Zero comparable markers yield NaN
-/

set_option maxRecDepth 100000 in
set_option maxHeartbeats 1000000 in
theorem stepCountPos_all : ∀ st ∈ engineSteps, stepCountPos st = true := by
  decide

theorem stepwise_count_zero (a b r : ℚ) :
    (stepwise a b r).2 = 0 → (stepwise a b r).1 = 0 := by
  unfold stepwise
  split
  · intro h; cases h
  · intro _; rfl

theorem infinite_count_zero (a b r : ℚ) :
    (infinite a b r).2 = 0 → (infinite a b r).1 = 0 := by
  unfold infinite
  split
  · intro h; cases h
  · intro _; rfl

theorem dys389Step_count_zero (y1 y2 rates : YstrMarkers) (mode : Bool) :
    (dys389Step y1 y2 rates mode).2 = 0 → (dys389Step y1 y2 rates mode).1 = 0 := by
  unfold dys389Step
  split
  · intro h; cases h
  · intro _; rfl

theorem dys464Step_count_zero (y1 y2 rates : YstrMarkers) :
    (dys464Step y1 y2 rates).2 = 0 → (dys464Step y1 y2 rates).1 = 0 := by
  unfold dys464Step
  split
  · intro h; cases h
  · intro _; rfl

theorem palStep_count_zero (y1 y2 rates : YstrMarkers) (s e : ℕ) (hse : s < e) :
    (palStep y1 y2 rates s e).2 = 0 → (palStep y1 y2 rates s e).1 = 0 := by
  unfold palStep
  split
  · intro h
    exact absurd h (by omega)
  · intro _; rfl

theorem evalStep_count_zero (y1 y2 rates : YstrMarkers) (mode : Bool) :
    ∀ st ∈ engineSteps, (evalStep y1 y2 rates mode st).2 = 0 →
      (evalStep y1 y2 rates mode st).1 = 0 := by
  intro st hst
  cases st with
  | single i =>
    cases mode
    · exact stepwise_count_zero (y1 i) (y2 i) (rates i)
    · exact infinite_count_zero (y1 i) (y2 i) (rates i)
  | dys389 => exact dys389Step_count_zero y1 y2 rates mode
  | dys464 => exact dys464Step_count_zero y1 y2 rates
  | pal s e =>
    have hse : s < e := by
      have := stepCountPos_all _ hst
      simpa [stepCountPos] using this
    exact palStep_count_zero y1 y2 rates s e hse

theorem foldr_addPair_count_zero (ps : List (ℚ × ℕ))
    (h : ∀ p ∈ ps, p.2 = 0 → p.1 = 0)
    (hz : (ps.foldr addPair (0, 0)).2 = 0) : (ps.foldr addPair (0, 0)).1 = 0 := by
  induction ps with
  | nil => rfl
  | cons p rest ih =>
    have hfold : (p :: rest).foldr addPair (0, 0) = addPair p (rest.foldr addPair (0, 0)) := rfl
    rw [hfold] at hz ⊢
    have hsplit : p.2 = 0 ∧ (rest.foldr addPair (0, 0)).2 = 0 := by
      have : p.2 + (rest.foldr addPair (0, 0)).2 = 0 := hz
      omega
    have h1 : p.1 = 0 := h p (List.mem_cons_self p rest) hsplit.1
    have h2 : (rest.foldr addPair (0, 0)).1 = 0 :=
      ih (fun q hq => h q (List.mem_cons_of_mem p hq)) hsplit.2
    show p.1 + (rest.foldr addPair (0, 0)).1 = 0
    rw [h1, h2, add_zero]

/-- With zero compared markers the sum is also zero, so the final division
is the IEEE `0.0 / 0.0` and the engine returns NaN. -/
theorem distance_nan_of_count_zero (y1 y2 rates : YstrMarkers) (mode : Bool)
    (h : (distanceTotal y1 y2 rates mode).2 = 0) :
    distance y1 y2 rates mode = GoFloat.nan := by
  have hsum : (distanceTotal y1 y2 rates mode).1 = 0 := by
    unfold distanceTotal at h ⊢
    exact foldr_addPair_count_zero _
      (fun p hp => by
        obtain ⟨st, hst, rfl⟩ := List.mem_map.mp hp
        exact evalStep_count_zero y1 y2 rates mode st hst) h
  unfold distance average
  rw [h, hsum]
  rfl

/-!
### Modal haplotype: the two passes pick the smallest value of maximal
count
-/

theorem findMax_spec (l : List (ℚ × ℕ)) : ∀ mx mv,
    (∀ p ∈ l, p.2 ≤ (findMax l (mx, mv)).1) ∧ mx ≤ (findMax l (mx, mv)).1 ∧
      (findMax l (mx, mv) = (mx, mv) ∨
        ((findMax l (mx, mv)).2, (findMax l (mx, mv)).1) ∈ l) := by
  induction l with
  | nil =>
    intro mx mv
    exact ⟨fun p hp => absurd hp (List.not_mem_nil p), le_refl mx, Or.inl rfl⟩
  | cons q rest ih =>
    intro mx mv
    obtain ⟨v, c⟩ := q
    by_cases hc : c > mx
    · simp only [findMax, if_pos hc]
      obtain ⟨hall, hle, hmem⟩ := ih c v
      refine ⟨?_, le_trans (le_of_lt hc) hle, ?_⟩
      · intro p hp
        rcases List.mem_cons.mp hp with rfl | hp'
        · exact hle
        · exact hall p hp'
      · rcases hmem with heq | hmem'
        · right; rw [heq]; exact List.mem_cons_self _ _
        · right; exact List.mem_cons_of_mem _ hmem'
    · simp only [findMax, if_neg hc]
      obtain ⟨hall, hle, hmem⟩ := ih mx mv
      refine ⟨?_, hle, ?_⟩
      · intro p hp
        rcases List.mem_cons.mp hp with rfl | hp'
        · exact le_trans (Nat.le_of_not_lt hc) hle
        · exact hall p hp'
      · rcases hmem with heq | hmem'
        · left; exact heq
        · right; exact List.mem_cons_of_mem _ hmem'

theorem lowerTie_spec (mx : ℕ) (l : List (ℚ × ℕ)) : ∀ mv,
    (lowerTie mx l mv = mv ∨ (lowerTie mx l mv, mx) ∈ l) ∧
      lowerTie mx l mv ≤ mv ∧
      ∀ p ∈ l, p.2 = mx → lowerTie mx l mv ≤ p.1 := by
  induction l with
  | nil =>
    intro mv
    exact ⟨Or.inl rfl, le_refl mv, fun p hp => absurd hp (List.not_mem_nil p)⟩
  | cons q rest ih =>
    intro mv
    obtain ⟨v, c⟩ := q
    by_cases hc : c = mx ∧ v < mv
    · simp only [lowerTie, if_pos hc]
      obtain ⟨hmem, hle, hall⟩ := ih v
      refine ⟨?_, le_trans hle (le_of_lt hc.2), ?_⟩
      · rcases hmem with heq | hm
        · right; rw [heq, ← hc.1]; exact List.mem_cons_self _ _
        · right; exact List.mem_cons_of_mem _ hm
      · intro p hp hpmx
        rcases List.mem_cons.mp hp with rfl | hp'
        · exact hle
        · exact hall p hp' hpmx
    · simp only [lowerTie, if_neg hc]
      obtain ⟨hmem, hle, hall⟩ := ih mv
      refine ⟨?_, hle, ?_⟩
      · rcases hmem with heq | hm
        · left; exact heq
        · right; exact List.mem_cons_of_mem _ hm
      · intro p hp hpmx
        rcases List.mem_cons.mp hp with rfl | hp'
        · have hnv : ¬ v < mv := fun hv => hc ⟨hpmx, hv⟩
          exact le_trans hle (le_of_not_lt hnv)
        · exact hall p hp' hpmx

theorem cMarkers_mem_iff (persons : List Person) (m : ℕ) (p : ℚ × ℕ) :
    p ∈ cMarkers persons m ↔
      p.1 ∈ (positiveValues persons m).dedup ∧
        p.2 = (positiveValues persons m).count p.1 := by
  unfold cMarkers
  constructor
  · intro hp
    obtain ⟨v, hv, rfl⟩ := List.mem_map.mp hp
    exact ⟨hv, rfl⟩
  · intro h
    obtain ⟨v, c⟩ := p
    have hc : c = List.count v (positiveValues persons m) := h.2
    exact List.mem_map.mpr ⟨v, h.1, by rw [hc]⟩

theorem modalValue_spec (persons : List Person) (m : ℕ) :
    (positiveValues persons m = [] → modalValue persons m = 0) ∧
    (positiveValues persons m ≠ [] →
      modalValue persons m ∈ positiveValues persons m ∧
        (∀ v ∈ positiveValues persons m,
          (positiveValues persons m).count v ≤
            (positiveValues persons m).count (modalValue persons m)) ∧
        ∀ v ∈ positiveValues persons m,
          (positiveValues persons m).count v =
              (positiveValues persons m).count (modalValue persons m) →
            modalValue persons m ≤ v) := by
  have hmv : modalValue persons m =
      lowerTie (findMax (cMarkers persons m) (0, 0)).1 (cMarkers persons m)
        (findMax (cMarkers persons m) (0, 0)).2 := rfl
  constructor
  · intro he
    unfold modalValue cMarkers
    rw [he]
    rfl
  · intro hne
    obtain ⟨hall, hle0, hmem0⟩ := findMax_spec (cMarkers persons m) 0 0
    have hcmmem : ((findMax (cMarkers persons m) (0, 0)).2,
        (findMax (cMarkers persons m) (0, 0)).1) ∈ cMarkers persons m := by
      rcases hmem0 with heq | h
      · exfalso
        obtain ⟨v0, hv0⟩ := List.exists_mem_of_ne_nil _ hne
        have hv0d : v0 ∈ (positiveValues persons m).dedup := List.mem_dedup.mpr hv0
        have hcmm : (v0, (positiveValues persons m).count v0) ∈ cMarkers persons m :=
          (cMarkers_mem_iff persons m _).mpr ⟨hv0d, rfl⟩
        have hcount : 0 < (positiveValues persons m).count v0 :=
          List.count_pos_iff.mpr hv0
        have hlt := hall _ hcmm
        rw [heq] at hlt
        exact absurd (lt_of_lt_of_le hcount hlt) (by norm_num)
      · exact h
    have hfm : (findMax (cMarkers persons m) (0, 0)).2 ∈
          (positiveValues persons m).dedup ∧
        (findMax (cMarkers persons m) (0, 0)).1 =
          (positiveValues persons m).count (findMax (cMarkers persons m) (0, 0)).2 :=
      (cMarkers_mem_iff persons m _).mp hcmmem
    obtain ⟨htmem, htle, htmin⟩ :=
      lowerTie_spec (findMax (cMarkers persons m) (0, 0)).1 (cMarkers persons m)
        (findMax (cMarkers persons m) (0, 0)).2
    have hmodal : modalValue persons m ∈ positiveValues persons m ∧
        (positiveValues persons m).count (modalValue persons m) =
          (findMax (cMarkers persons m) (0, 0)).1 := by
      rw [hmv]
      rcases htmem with heq | hm
      · rw [heq]
        exact ⟨List.mem_dedup.mp hfm.1, hfm.2.symm⟩
      · have := (cMarkers_mem_iff persons m _).mp hm
        exact ⟨List.mem_dedup.mp this.1, this.2.symm⟩
    refine ⟨hmodal.1, ?_, ?_⟩
    · intro v hv
      have hvmem : (v, (positiveValues persons m).count v) ∈ cMarkers persons m :=
        (cMarkers_mem_iff persons m _).mpr ⟨List.mem_dedup.mpr hv, rfl⟩
      have := hall _ hvmem
      rw [hmodal.2]
      exact this
    · intro v hv hcv
      have hvmem : (v, (positiveValues persons m).count v) ∈ cMarkers persons m :=
        (cMarkers_mem_iff persons m _).mpr ⟨List.mem_dedup.mpr hv, rfl⟩
      have hveq : (positiveValues persons m).count v =
          (findMax (cMarkers persons m) (0, 0)).1 := by rw [hcv, hmodal.2]
      have := htmin _ hvmem hveq
      rw [hmv]
      exact this

/-!
### Distance matrix lemmas
-/

theorem mem_rangeList {a b x : ℕ} : x ∈ rangeList a b ↔ a ≤ x ∧ x < b := by
  unfold rangeList
  simp only [List.mem_map, List.mem_range]
  constructor
  · rintro ⟨k, hk, rfl⟩
    omega
  · intro h
    exact ⟨x - a, by omega, by omega⟩

theorem rangeList_nodup (a b : ℕ) : (rangeList a b).Nodup := by
  unfold rangeList
  exact List.Nodup.map (fun x y hxy => by omega) (List.nodup_range _)

theorem getD_map_range {α : Type} (n : ℕ) (f : ℕ → α) (dflt : α) {i : ℕ} (hi : i < n) :
    ((List.range n).map f).getD i dflt = f i := by
  rw [List.getD_eq_getElem?_getD, List.getElem?_map, List.getElem?_range hi]
  rfl

theorem getD_map {α β : Type} (f : α → β) (l : List α) (dflt : β) {i : ℕ}
    (hi : i < l.length) : (l.map f).getD i dflt = f l[i] := by
  rw [List.getD_eq_getElem?_getD, List.getElem?_map, List.getElem?_eq_getElem hi]
  rfl

theorem matrixGet_new (persons : List Person) (rates : YstrMarkers) (d : DistanceFunc)
    {i j : ℕ} (hi : i < persons.length) (hj : j < persons.length) :
    matrixGet (NewDistanceMatrix persons rates d) i j =
      if i ≤ j then
        d (persons.getD i default).ystrMarkers (persons.getD j default).ystrMarkers rates
      else
        d (persons.getD j default).ystrMarkers (persons.getD i default).ystrMarkers rates := by
  unfold matrixGet NewDistanceMatrix
  dsimp only
  rw [getD_map_range _ _ _ hi, getD_map_range _ _ _ hj]

theorem mem_metricCallPairs {n i j : ℕ} :
    (i, j) ∈ metricCallPairs n ↔ i ≤ j ∧ j < n := by
  unfold metricCallPairs
  simp only [List.mem_flatMap, List.mem_map, mem_rangeList, List.mem_range]
  constructor
  · rintro ⟨a, ha, b, hb, heq⟩
    cases heq
    exact hb
  · intro h
    exact ⟨i, by omega, j, h, rfl⟩

theorem metricCallPairs_nodup (n : ℕ) : (metricCallPairs n).Nodup := by
  unfold metricCallPairs
  rw [List.nodup_flatMap]
  constructor
  · intro i _
    exact List.Nodup.map (fun a b h => by injection h) (rangeList_nodup i n)
  · apply List.Pairwise.imp ?_ (List.pairwise_lt_range n)
    intro a b hab
    intro x hxa hxb
    obtain ⟨ja, _, rfl⟩ := List.mem_map.mp hxa
    obtain ⟨jb, _, heq⟩ := List.mem_map.mp hxb
    have : b = a := congrArg Prod.fst heq
    omega

theorem years_size (dm : DistanceMatrix) (g c : ℚ) : (Years dm g c).size = dm.size := rfl

theorem getD_values (dm : DistanceMatrix) {i : ℕ} (hi : i < dm.values.length) :
    dm.values.getD i [] = dm.values[i] := by
  rw [List.getD_eq_getElem?_getD, List.getElem?_eq_getElem hi]
  rfl

theorem years_get (dm : DistanceMatrix) (g c : ℚ) {i j : ℕ}
    (hi : i < dm.values.length) (hj : j < (dm.values.getD i []).length) :
    matrixGet (Years dm g c) i j = ratTrunc (g * c * matrixGet dm i j) := by
  have hrow : dm.values.getD i [] = dm.values[i] := getD_values dm hi
  have hj' : j < dm.values[i].length := by rw [← hrow]; exact hj
  unfold matrixGet Years
  dsimp only
  rw [getD_map _ _ _ hi, getD_map _ _ _ hj', hrow,
    List.getD_eq_getElem?_getD, List.getElem?_eq_getElem hj']
  rfl

/-!
### Vectors without positive values contribute nothing
-/

theorem any_pos_eq_false_of_nonpos {l : List ℚ} (h : ∀ x ∈ l, x ≤ 0) :
    (l.any fun v => decide (0 < v)) = false := by
  cases hany : l.any fun v => decide (0 < v)
  · rfl
  · exfalso
    obtain ⟨x, hx, hpx⟩ := List.any_eq_true.mp hany
    simp only [decide_eq_true_eq] at hpx
    exact absurd hpx (not_lt.mpr (h x hx))

theorem isValidPalindromic_false_left {l1 l2 : List ℚ} {r : ℚ}
    (h : (l1.any fun v => decide (0 < v)) = false) :
    isValidPalindromic l1 l2 r = false := by
  unfold isValidPalindromic
  split
  · rfl
  · rw [h]
    simp

theorem slice_nonpos (y : YstrMarkers) (h : ∀ i, y i ≤ 0) (s e : ℕ) :
    ∀ x ∈ slice y s e, x ≤ 0 := by
  intro x hx
  unfold slice at hx
  obtain ⟨k, _, rfl⟩ := List.mem_map.mp hx
  exact h _

theorem dys464Values_nonpos (y : YstrMarkers) (h : ∀ i, y i ≤ 0) :
    ∀ x ∈ dys464Values y, x ≤ 0 := by
  intro x hx
  unfold dys464Values at hx
  rcases List.mem_append.mp hx with h1 | h1
  · exact slice_nonpos y h _ _ x h1
  · exact slice_nonpos y h _ _ x h1

theorem evalStep_zero_of_nonpos (y1 y2 rates : YstrMarkers) (mode : Bool)
    (h : ∀ i, y1 i ≤ 0) : ∀ st : Step, evalStep y1 y2 rates mode st = (0, 0) := by
  intro st
  cases st with
  | single i =>
    show singleDistance mode (y1 i) (y2 i) (rates i) = (0, 0)
    cases mode
    · show stepwise (y1 i) (y2 i) (rates i) = (0, 0)
      unfold stepwise
      rw [if_neg fun hc => absurd hc.1 (not_lt.mpr (h i))]
    · show infinite (y1 i) (y2 i) (rates i) = (0, 0)
      unfold infinite
      rw [if_neg fun hc => absurd hc.1 (not_lt.mpr (h i))]
  | dys389 =>
    show dys389Step y1 y2 rates mode = (0, 0)
    unfold dys389Step
    rw [if_neg fun hc => absurd hc.1 (not_lt.mpr (h DYS389i))]
  | dys464 =>
    show dys464Step y1 y2 rates = (0, 0)
    have hv : isValidPalindromic (dys464Values y1) (dys464Values y2)
        (rates DYS464end) = false :=
      isValidPalindromic_false_left (any_pos_eq_false_of_nonpos (dys464Values_nonpos y1 h))
    unfold dys464Step
    simp [hv]
  | pal s e =>
    show palStep y1 y2 rates s e = (0, 0)
    have hv : isValidPalindromic (slice y1 s e) (slice y2 s e) (rates e) = false :=
      isValidPalindromic_false_left (any_pos_eq_false_of_nonpos (slice_nonpos y1 h s e))
    unfold palStep
    simp [hv]

theorem foldr_addPair_zeros {α : Type} (l : List α) :
    (l.map fun _ => ((0 : ℚ), (0 : ℕ))).foldr addPair (0, 0) = (0, 0) := by
  induction l with
  | nil => rfl
  | cons a rest ih =>
    show addPair (0, 0) ((rest.map fun _ => ((0 : ℚ), (0 : ℕ))).foldr addPair (0, 0)) = (0, 0)
    rw [ih]
    simp [addPair]

theorem distanceTotal_zero_of_nonpos (y1 y2 rates : YstrMarkers) (mode : Bool)
    (h : ∀ i, y1 i ≤ 0) : distanceTotal y1 y2 rates mode = (0, 0) := by
  unfold distanceTotal
  rw [List.map_congr_left fun st _ => evalStep_zero_of_nonpos y1 y2 rates mode h st]
  exact foldr_addPair_zeros engineSteps

/-!
## Claim theorems
-/

/-- C1: For every ordinary (non-compound, non-palindromic) marker position
`i` — exactly the positions the engine handles through the `stepwise`
closure, `Step.single i ∈ engineSteps` — the hybrid distance adds
`|a[i] - b[i]| / rate[i]` to the running sum and 1 to the compared-marker
count exactly when `a[i] > 0`, `b[i] > 0` and `rate[i] > 0`; in every
other case, including when any of `a[i]`, `b[i]` or `rate[i]` is
negative, the position contributes `(0, 0)` — nothing to the sum and
nothing to the denominator.  The engine totals are the fold of the
per-step contribution pairs. -/
theorem claim1_ordinary_stepwise (i : ℕ) (a b rates : YstrMarkers)
    (hmem : Step.single i ∈ engineSteps) :
    ((0 < a i ∧ 0 < b i ∧ 0 < rates i →
        evalStep a b rates false (Step.single i) = (|a i - b i| / rates i, 1)) ∧
      (¬(0 < a i ∧ 0 < b i ∧ 0 < rates i) →
        evalStep a b rates false (Step.single i) = (0, 0))) ∧
    distanceTotal a b rates false =
      (engineSteps.map (evalStep a b rates false)).foldr addPair (0, 0) := by
  refine ⟨⟨?_, ?_⟩, rfl⟩
  · intro h
    show stepwise (a i) (b i) (rates i) = _
    unfold stepwise
    rw [if_pos h]
  · intro h
    show stepwise (a i) (b i) (rates i) = _
    unfold stepwise
    rw [if_neg h]

/-- Witness for C1: position 0 with values 13 and 15 and rate 1
contributes `(2, 1)`. -/
theorem claim1_witness :
    Step.single 0 ∈ engineSteps ∧
      evalStep thirteenMarkers fifteenMarkers DefaultMutationRates false
        (Step.single 0) = (2, 1) := by
  have hmem : Step.single 0 ∈ engineSteps := by decide
  refine ⟨hmem, ?_⟩
  have h := (claim1_ordinary_stepwise 0 thirteenMarkers fifteenMarkers
    DefaultMutationRates hmem).1.1 (by decide)
  rw [h]
  with_unfolding_all decide

/-- C2: For every palindromic region and every pair of marker vectors,
permuting the values within the region in either person's vector (leaving
everything outside the region unchanged) never changes the computed
pairwise distance, in either mutation model. -/
theorem claim2_palindromic_perm (R : List ℕ) (hR : R ∈ palRegionLists)
    (y1 y1' y2 rates : YstrMarkers) (mode : Bool)
    (hout : ∀ i, i ∉ R → y1' i = y1 i)
    (hperm : (R.map y1').Perm (R.map y1)) :
    distance y1' y2 rates mode = distance y1 y2 rates mode ∧
      distance y2 y1' rates mode = distance y2 y1 rates mode := by
  have h1 := distance_perm_left R hR y1 y1' y2 rates mode hout hperm
  refine ⟨h1, ?_⟩
  rw [distance_comm y2 y1' rates mode, h1, distance_comm]

/-- Witness for C2: swapping the two YCAII values of a person leaves the
hybrid distance unchanged. -/
theorem claim2_witness :
    rangeList YCAIIstart (YCAIIend + 1) ∈ palRegionLists ∧
      distance ycaiiB thirteenMarkers DefaultMutationRates false =
        distance ycaiiA thirteenMarkers DefaultMutationRates false := by
  have hR : rangeList YCAIIstart (YCAIIend + 1) ∈ palRegionLists := by decide
  refine ⟨hR, ?_⟩
  refine (claim2_palindromic_perm _ hR ycaiiA ycaiiB thirteenMarkers
    DefaultMutationRates false ?_ ?_).1
  · intro i hi
    have hi' : ¬(YCAIIstart ≤ i ∧ i < YCAIIend + 1) := fun hc => hi (mem_rangeList.mpr hc)
    have hne : i ≠ 27 ∧ i ≠ 28 := by
      simp only [YCAIIstart, YCAIIend] at hi'
      omega
    simp [ycaiiA, ycaiiB, YCAIIstart, YCAIIend, hne.1, hne.2]
  · with_unfolding_all decide

/-- C3: When the strictly-positive multisets of a palindromic region
differ in size, `distancePalindromic` adds a flat base distance of exactly
1 (regardless of how large the size difference is), matches the smaller
multiset greedily against the larger — each value of the smaller multiset
without an equal unmatched partner adds 1, so the match count is the
smaller size minus the multiset intersection size — and divides the total
by the region's mutation rate. -/
theorem claim3_palindromic_unequal (l1 l2 : List ℚ) (r : ℚ) (hr : r ≠ 0)
    (hlen : (l1.filter fun v => decide (0 < v)).length ≠
      (l2.filter fun v => decide (0 < v)).length) :
    distancePalindromic l1 l2 r =
      (1 + ((min (l1.filter fun v => decide (0 < v)).length
            (l2.filter fun v => decide (0 < v)).length -
          Multiset.card ((↑(l1.filter fun v => decide (0 < v)) : Multiset ℚ) ∩
            ↑(l2.filter fun v => decide (0 < v))) : ℕ) : ℚ)) / r := by
  rw [distancePalindromic_eq_formula l1 l2 hr, if_pos hlen]

/-- Witness for C3: `[12, 13]` against `[12, 12, 15]` (sizes 2 and 3, one
match) gives distance `(1 + 1) / 1 = 2`. -/
theorem claim3_witness :
    ((1 : ℚ) ≠ 0) ∧
      distancePalindromic [12, 13] [12, 12, 15] 1 = 2 := by
  have h := claim3_palindromic_unequal [12, 13] [12, 12, 15] 1 (by decide) (by decide)
  refine ⟨by decide, ?_⟩
  rw [h]
  with_unfolding_all decide

/-- C4: Whenever the DYS464 region (4 canonical slots plus the 4 overflow
slots) is valid for comparison, the engine adds exactly 4 to the
compared-marker count — even when overflow slots carry strictly positive
values, since the count increment is the constant
`DYS464end - DYS464start + 1`, not the observed copy number; every other
palindromic region of the engine, when valid, adds its canonical slot
width `e + 1 - s`. -/
theorem claim4_palindromic_count (y1 y2 rates : YstrMarkers) :
    (Step.dys464 ∈ engineSteps ∧
      (dys464Step y1 y2 rates).2 =
        if isValidPalindromic (dys464Values y1) (dys464Values y2) (rates DYS464end)
        then 4 else 0) ∧
    ∀ s e, Step.pal s e ∈ engineSteps →
      (palStep y1 y2 rates s e).2 =
        if isValidPalindromic (slice y1 s e) (slice y2 s e) (rates e)
        then e + 1 - s else 0 := by
  refine ⟨⟨by decide, ?_⟩, ?_⟩
  · unfold dys464Step
    by_cases h : isValidPalindromic (dys464Values y1) (dys464Values y2)
        (rates DYS464end) = true
    · rw [if_pos h, if_pos h]
      rfl
    · rw [if_neg h, if_neg h]
  · intro s e _
    unfold palStep
    by_cases h : isValidPalindromic (slice y1 s e) (slice y2 s e) (rates e) = true
    · rw [if_pos h, if_pos h]
    · rw [if_neg h, if_neg h]

/-- Witness for C4: a DYS464 region with 6 observed copies (2 strictly
positive overflow values) still counts as 4 compared markers; the YCAII
region counts as 2. -/
theorem claim4_witness :
    isValidPalindromic (dys464Values dys464Overflow) (dys464Values dys464Overflow)
        (DefaultMutationRates DYS464end) = true ∧
      (dys464Step dys464Overflow dys464Overflow DefaultMutationRates).2 = 4 ∧
      (palStep ycaiiA ycaiiA DefaultMutationRates YCAIIstart YCAIIend).2 = 2 := by
  have h4 := (claim4_palindromic_count dys464Overflow dys464Overflow
    DefaultMutationRates).1.2
  have hp := (claim4_palindromic_count ycaiiA ycaiiA DefaultMutationRates).2
    YCAIIstart YCAIIend (by decide)
  refine ⟨by with_unfolding_all decide, ?_, ?_⟩
  · rw [h4, if_pos (by with_unfolding_all decide)]
  · rw [hp, if_pos (by with_unfolding_all decide)]
    rfl

/-- C5 counterexample: comparing two all-zero marker vectors, no marker is
comparable and the hybrid distance silently performs the `0.0 / 0.0`
division and returns NaN; the function's only output channel is this
float value — no explicit error or sentinel is reported to the caller,
contradicting the claim. -/
theorem claim5_counterexample :
    (distanceTotal zeroMarkers zeroMarkers DefaultMutationRates false).2 = 0 ∧
      distance zeroMarkers zeroMarkers DefaultMutationRates false = GoFloat.nan := by
  have htot := distanceTotal_zero_of_nonpos zeroMarkers zeroMarkers
    DefaultMutationRates false fun i => le_refl 0
  constructor
  · rw [htot]
  · exact distance_nan_of_count_zero zeroMarkers zeroMarkers DefaultMutationRates false
      (by rw [htot])

/-- C5 (amended): whenever the compared-marker count is zero, the distance
computation silently returns NaN (the IEEE result of the 0/0 division it
performs unconditionally) rather than reporting an error; callers must
guard. -/
theorem claim5_zero_compared_nan (y1 y2 rates : YstrMarkers) (mode : Bool)
    (h : (distanceTotal y1 y2 rates mode).2 = 0) :
    distance y1 y2 rates mode = GoFloat.nan :=
  distance_nan_of_count_zero y1 y2 rates mode h

/-- Witness for C5 (amended): an all-negative vector is comparable
nowhere, and the distance is NaN. -/
theorem claim5_witness :
    (distanceTotal negMarkers thirteenMarkers DefaultMutationRates false).2 = 0 ∧
      distance negMarkers thirteenMarkers DefaultMutationRates false = GoFloat.nan :=
  ⟨by
    rw [distanceTotal_zero_of_nonpos negMarkers thirteenMarkers DefaultMutationRates false
      fun _ => (by with_unfolding_all decide : (-5 : ℚ) ≤ 0)],
   claim5_zero_compared_nan negMarkers thirteenMarkers DefaultMutationRates false
    (by
      rw [distanceTotal_zero_of_nonpos negMarkers thirteenMarkers DefaultMutationRates false
        fun _ => (by with_unfolding_all decide : (-5 : ℚ) ≤ 0)])⟩

/-- C6 counterexample: with the constant-1 metric and a single person the
diagonal cell is 1, not 0 — `NewDistanceMatrix` fills the diagonal by
invoking the metric on the person with itself, so `Values[i][i] == 0`
fails for this distance function. -/
theorem claim6_counterexample :
    matrixGet (NewDistanceMatrix [examplePerson] zeroMarkers constOneMetric) 0 0 = 1 ∧
      (1 : ℚ) ≠ 0 := by
  constructor <;> decide

/-- C6 (amended): for every persons list, mutation-rate table and distance
function, the matrix is symmetric; every upper-triangle cell `i ≤ j` (and
hence the diagonal, with `j = i`) holds the metric applied to the pair —
so `Values[i][i] = d(p_i, p_i)`, which is 0 exactly when the metric
vanishes on identical arguments, not unconditionally; and the metric is
invoked exactly once per unordered pair: the call list is exactly the
pairs `(i, j)` with `i ≤ j < n`, without duplicates, and the lower
triangle is copied from the upper one. -/
theorem claim6_matrix_structure (persons : List Person) (rates : YstrMarkers)
    (d : DistanceFunc) (i j : ℕ) (hi : i < persons.length) (hj : j < persons.length) :
    matrixGet (NewDistanceMatrix persons rates d) i j =
        matrixGet (NewDistanceMatrix persons rates d) j i ∧
      (i ≤ j → matrixGet (NewDistanceMatrix persons rates d) i j =
        d (persons.getD i default).ystrMarkers (persons.getD j default).ystrMarkers rates) ∧
      (matrixGet (NewDistanceMatrix persons rates d) i i =
        d (persons.getD i default).ystrMarkers (persons.getD i default).ystrMarkers rates) ∧
      ((i, j) ∈ metricCallPairs persons.length ↔ i ≤ j) ∧
      (metricCallPairs persons.length).Nodup := by
  refine ⟨?_, ?_, ?_, ?_, metricCallPairs_nodup persons.length⟩
  · rw [matrixGet_new persons rates d hi hj, matrixGet_new persons rates d hj hi]
    rcases le_or_lt i j with h | h
    · by_cases h2 : j ≤ i
      · have hij : i = j := le_antisymm h h2
        subst hij
        rfl
      · rw [if_pos h, if_neg h2]
    · rw [if_neg (not_le.mpr h), if_pos (le_of_lt h)]
  · intro hij
    rw [matrixGet_new persons rates d hi hj, if_pos hij]
  · rw [matrixGet_new persons rates d hi hi, if_pos (le_refl i)]
  · constructor
    · intro h
      exact (mem_metricCallPairs.mp h).1
    · intro h
      exact mem_metricCallPairs.mpr ⟨h, hj⟩

/-- Witness for C6 (amended) on a concrete two-person list. -/
theorem claim6_witness :
    matrixGet (NewDistanceMatrix [witnessPersonA, witnessPersonB]
        DefaultMutationRates constOneMetric) 0 1 =
      matrixGet (NewDistanceMatrix [witnessPersonA, witnessPersonB]
        DefaultMutationRates constOneMetric) 1 0 ∧
    ((0, 1) ∈ metricCallPairs 2 ↔ (0 : ℕ) ≤ 1) := by
  have h := claim6_matrix_structure [witnessPersonA, witnessPersonB]
    DefaultMutationRates constOneMetric 0 1 (by decide) (by decide)
  exact ⟨h.1, h.2.2.2.1⟩

/-- C7: For every list of persons and every marker position,
`ModalHaplotype` assigns a strictly positive value of maximal occurrence
count (zeros excluded from tallying); among values tied for the maximal
count it assigns the numerically smallest; and it assigns 0 when no
person has a strictly positive value at the position. -/
theorem claim7_modal (persons : List Person) (m : ℕ) (hm : m < MaxMarkers) :
    (positiveValues persons m = [] → (ModalHaplotype persons).ystrMarkers m = 0) ∧
      (positiveValues persons m ≠ [] →
        (ModalHaplotype persons).ystrMarkers m ∈ positiveValues persons m ∧
          (∀ v ∈ positiveValues persons m,
            (positiveValues persons m).count v ≤
              (positiveValues persons m).count ((ModalHaplotype persons).ystrMarkers m)) ∧
          ∀ v ∈ positiveValues persons m,
            (positiveValues persons m).count v =
                (positiveValues persons m).count ((ModalHaplotype persons).ystrMarkers m) →
              (ModalHaplotype persons).ystrMarkers m ≤ v) := by
  have hin : (ModalHaplotype persons).ystrMarkers m = modalValue persons m := by
    show (if m < MaxMarkers then modalValue persons m else 0) = modalValue persons m
    exact if_pos hm
  rw [hin]
  exact modalValue_spec persons m

/-- Witness for C7: value counts `{10 : 2, 12 : 2}` yield modal value 10
(the lower of the tied values). -/
theorem claim7_witness :
    (ModalHaplotype modalTiePersons).ystrMarkers 5 ∈ positiveValues modalTiePersons 5 ∧
      (ModalHaplotype modalTiePersons).ystrMarkers 5 = 10 := by
  have h := (claim7_modal modalTiePersons 5 (by decide)).2
    (by with_unfolding_all decide)
  exact ⟨h.1, by with_unfolding_all decide⟩

/-- C8: `Years` returns a new matrix of the same size whose cell `(i, j)`
is `trunc(g * c * m[i][j])` (truncation toward zero); the receiver matrix
is not modified (the embedding is pure and `Years` only reads it). -/
theorem claim8_years (dm : DistanceMatrix) (g c : ℚ) (i j : ℕ)
    (hi : i < dm.values.length) (hj : j < (dm.values.getD i []).length) :
    (Years dm g c).size = dm.size ∧
      matrixGet (Years dm g c) i j = ratTrunc (g * c * matrixGet dm i j) :=
  ⟨years_size dm g c, years_get dm g c hi hj⟩

/-- Witness for C8: raw distance 1.37 with `g = 32`, `c = 1` rescales to
43, not 44. -/
theorem claim8_witness :
    matrixGet (Years ⟨1, [[(137 : ℚ) / 100]]⟩ 32 1) 0 0 = 43 := by
  have h := (claim8_years ⟨1, [[(137 : ℚ) / 100]]⟩ 32 1 0 0 (by decide) (by decide)).2
  rw [h]
  with_unfolding_all decide

/-- C9 (code bug): the completeness check of `markerSet` tests
`i <= DYS464start || i >= DYS464end`, so only the interior DYS464 slots
are exempt: a person missing the value at index `DYS464start` (or
`DYS464end`) is classified incomplete and dropped, although the claim —
and the code's own comment, which says the palindromic marker DYS464 is
not counted here — exempts the whole region.  A missing value at the
interior slot `DYS464start + 1` is exempt. -/
theorem claim9_dys464_boundary :
    (markerSet personNoDYS464start 26).2 = false ∧
      (markerSet personNoDYS464inner 26).2 = true := by
  constructor <;> decide

/-- C10: the scalar distance function is symmetric in its two person
arguments, in both the hybrid and the infinite-alleles mode, including
palindromic regions with value multisets of different sizes (where the
computation swaps the lists so the smaller is matched against the larger)
and the compound DYS389ii difference-of-differences case. -/
theorem claim10_distance_symmetric (y1 y2 rates : YstrMarkers) (mode : Bool) :
    distance y1 y2 rates mode = distance y2 y1 rates mode :=
  distance_comm y1 y2 rates mode

end Phylofriend
